import Mathlib

set_option maxRecDepth 100000

/-!
Verification of the property-lookup core in `src/properties.py`.

The Python module is shallowly embedded below. Python strings are Lean
`String`s; `str.lower` is modelled on the character list (`pyLower`),
substring tests (`x in y`) are modelled as list containment tests
(`strContains`), and Python dicts holding string keys and values become
association lists in insertion order (`setKV` is `d[k] = v`, `lookupO`
together with `lookupD` are `d.get`).  The database-facing function
`load_properties_from_db` is modelled over an explicit outcome type
`DBOutcome`: the pure grouping loop over the fetched rows is `groupRows`,
and the printed diagnostics are returned as a list of strings.
-/

/-- Python `s.lower()` on the character list of `s`. -/
def pyLower (s : String) : String := String.mk (s.data.map Char.toLower)

/-- Python substring test: `strContains hay needle` models `needle in hay`. -/
def strContains (hay needle : String) : Bool := decide (needle.data <:+: hay.data)

/-- Lookup in a Python dict modelled as an association list (first hit wins;
`setKV` keeps keys unique, so the first hit is the only hit). -/
def lookupO : List (String × String) → String → Option String
  | [], _ => none
  | kv :: rest, k => if kv.1 == k then some kv.2 else lookupO rest k

/-- Python `d.get(k, dflt)`. -/
def lookupD (m : List (String × String)) (k d : String) : String :=
  (lookupO m k).getD d

/-- Python `d[k] = v`: replace the value in place if the key is present,
otherwise append the new pair at the end (insertion order). -/
def setKV : List (String × String) → String → String → List (String × String)
  | [], k, v => [(k, v)]
  | kv :: rest, k, v => if kv.1 == k then (k, v) :: rest else kv :: setKV rest k v

/-- Python `key.startswith("_")`: the first character is an underscore. -/
def startsU (s : String) : Bool :=
  match s.data with
  | c :: _ => c == '_'
  | [] => false

/-- Python `key[1:]`: drop the first character. -/
def dropU (s : String) : String :=
  match s.data with
  | _ :: rest => String.mk rest
  | [] => ""

/-- The string `"_" ++ k`, used to state which row keys feed the system map. -/
def underscored (k : String) : String := String.mk ('_' :: k.data)

/-- One row of the `PropertyContext` table: `("propertyId", key, value)`. -/
structure Row where
  propId : String
  key : String
  value : String
deriving DecidableEq

/-- One grouped property record: the dict
`{"id": ..., "system": {...}, "context": {...}}` built by
`load_properties_from_db`. -/
structure Property where
  id : String
  system : List (String × String)
  context : List (String × String)
deriving DecidableEq

/-- The per-row body of the grouping loop in `load_properties_from_db`
(lines 64-70 of `src/properties.py`): an underscore-prefixed key is stored
in `system` with the underscore stripped, any other key goes to `context`
unmodified. -/
def applyRow (p : Property) (key value : String) : Property :=
  if startsU key then Property.mk p.id (setKV p.system (dropU key) value) p.context
  else Property.mk p.id p.system (setKV p.context key value)

/-- The fresh entry created when a `propertyId` is first seen
(lines 57-62 of `src/properties.py`). -/
def freshProp (pid : String) : Property := Property.mk pid [] []

/-- Process one row against the accumulated `properties_map`, modelled as a
list of records in first-seen insertion order. -/
def insertRow : List Property → Row → List Property
  | [], r => [applyRow (freshProp r.propId) r.key r.value]
  | p :: ps, r =>
    if p.id == r.propId then applyRow p r.key r.value :: ps
    else p :: insertRow ps r

/-- The grouping loop of `load_properties_from_db` over the fetched rows,
followed by `list(properties_map.values())`. -/
def groupRows (rows : List Row) : List Property := List.foldl insertRow [] rows

/-- The ways the database interaction can go for
`load_properties_from_db`: the connection URL is unset, `psycopg2.connect`
raises, the query (or any later step of the `try` block) raises, or the
rows are fetched successfully. -/
inductive DBOutcome where
  | noUrl : DBOutcome
  | connectError (msg : String) : DBOutcome
  | queryError (msg : String) : DBOutcome
  | ok (rows : List Row) : DBOutcome
deriving DecidableEq

/-- `load_properties_from_db` (with `get_db_connection` inlined), returning
the produced record list together with the printed diagnostics. -/
def load_properties_from_db : DBOutcome → List Property × List String
  | DBOutcome.noUrl => ([], ["Warning: Could not connect to database"])
  | DBOutcome.connectError m =>
      ([], ["Database connection error: " ++ m, "Warning: Could not connect to database"])
  | DBOutcome.queryError m => ([], ["Error loading properties from database: " ++ m])
  | DBOutcome.ok rows => (groupRows rows, [])

/-- Replay a list of rows (already filtered to one `propertyId`) against a
record; `groupRows` is characterised in terms of this below. -/
def extendProp (p : Property) (rows : List Row) : Property :=
  List.foldl (fun q r => applyRow q r.key r.value) p rows

/-- The property ids of `rows` in first-seen order, those in `seen`
excluded. -/
def firstSeen (seen : List String) : List Row → List String
  | [] => []
  | r :: rs =>
    if r.propId ∈ seen then firstSeen seen rs
    else r.propId :: firstSeen (r.propId :: seen) rs

/-- The value of the last row of a list, if any: the value a Python dict
holds after all assignments of the list have run. -/
def lastVal : List Row → Option String
  | [] => none
  | r :: rs =>
    match lastVal rs with
    | some v => some v
    | none => some r.value

/-- `sys.get("nickname", "").lower()` in `find_property`. -/
def nicknameOf (p : Property) : String := pyLower (lookupD p.system "nickname" "")

/-- `sys.get("city", "").lower()` in `find_property`. -/
def cityOf (p : Property) : String := pyLower (lookupD p.system "city" "")

/-- `sys.get("name", "").lower()` in `find_property`. -/
def nameOf (p : Property) : String := pyLower (lookupD p.system "name" "")

/-- `sys.get("bedrooms", "").lower()` in `find_property`. -/
def bedroomsOf (p : Property) : String := pyLower (lookupD p.system "bedrooms" "")

/-- The loop body of `find_property` (lines 86-113 of `src/properties.py`):
each early `return p` becomes a `true` branch, tried in the same order.
1 exact nickname, 2 city substring either way, 3 name contains query,
4 bedrooms substring either way, 5 special-cased studio and one-bedroom
terms. -/
def matchRecord (ql : String) (p : Property) : Bool :=
  if ql == nicknameOf p then true
  else if cityOf p != "" && (strContains (cityOf p) ql || strContains ql (cityOf p)) then true
  else if nameOf p != "" && strContains (nameOf p) ql then true
  else if bedroomsOf p != "" && (strContains (bedroomsOf p) ql || strContains ql (bedroomsOf p)) then
    true
  else if strContains ql "studio" && bedroomsOf p == "studio" then true
  else if (strContains ql "1" || strContains ql "one") && bedroomsOf p == "1" then true
  else false

/-- The record scan of `find_property`: first record matching any predicate
wins, `none` if the list is exhausted. -/
def findAux (ql : String) : List Property → Option Property
  | [] => none
  | p :: ps => if matchRecord ql p then some p else findAux ql ps

/-- `find_property(query)` over an explicit record list (the Python
function fetches the list itself; the spec calls this `resolve`). -/
def find_property (query : String) (properties : List Property) : Option Property :=
  findAux (pyLower query) properties

/-- The per-record sentence built by `get_all_properties`
(lines 126-137 of `src/properties.py`). -/
def property_summary (p : Property) : String :=
  let name := lookupD p.system "name" "Unknown Property"
  let city := lookupD p.system "city" ""
  let state := lookupD p.system "state" ""
  let bedrooms := lookupD p.system "bedrooms" "Unknown"
  let rent := lookupD p.system "monthly_rent" "Contact for pricing"
  let location := if city != "" && state != "" then city ++ ", " ++ state else ""
  "The " ++ name ++ " in " ++ location ++ " is a " ++ bedrooms ++ " bedroom for $" ++ rent
    ++ " per month."

/-- `get_all_properties` over an explicit record list (the spec calls this
`summarize_all`). -/
def get_all_properties (properties : List Property) : String :=
  if properties.isEmpty then
    "I\x27m sorry, I couldn\x27t load property information right now. Please try again later."
  else String.intercalate " " (properties.map property_summary)

/-- Python `s.replace(old, new)` for a one-character `old`, as used on the
amenities list and on context keys in `get_property_details`. -/
def replaceCharAux (old : Char) (new : List Char) : List Char → List Char
  | [] => []
  | c :: cs => (if c == old then new else [c]) ++ replaceCharAux old new cs

/-- String-level wrapper for `replaceCharAux`. -/
def pyReplaceChar (s : String) (old : Char) (new : String) : String :=
  String.mk (replaceCharAux old new.data s.data)

/-- Python `s.title()`: uppercase every character that follows a
non-alphabetic one, lowercase the rest. -/
def pyTitleAux : Bool → List Char → List Char
  | _, [] => []
  | prevAlpha, c :: cs =>
    (if c.isAlpha then (if prevAlpha then c.toLower else c.toUpper) else c)
      :: pyTitleAux c.isAlpha cs

/-- String-level wrapper for `pyTitleAux`. -/
def pyTitle (s : String) : String := String.mk (pyTitleAux false s.data)

/-- The `Additional information` lines appended by `get_property_details`
for the user-added context entries. -/
def detail_context_lines (ctx : List (String × String)) : String :=
  String.join (ctx.map (fun kv => "\n" ++ pyTitle (pyReplaceChar kv.1 '_' " ") ++ ": " ++ kv.2))

/-- The matched branch of `get_property_details`
(lines 152-199 of `src/properties.py`). -/
def property_detail (p : Property) : String :=
  let sys := p.system
  let ctx := p.context
  let name := lookupD sys "name" "the property"
  let address := lookupD sys "address" ""
  let city := lookupD sys "city" ""
  let state := lookupD sys "state" ""
  let city_state := if city != "" && state != "" then city ++ ", " ++ state else ""
  let bedrooms := lookupD sys "bedrooms" "Unknown"
  let bathrooms := lookupD sys "bathrooms" "Unknown"
  let layout := lookupD sys "layout" ""
  let size := lookupD sys "size_sqft" ""
  let rent := lookupD sys "monthly_rent" "Contact for pricing"
  let utilities := if pyLower (lookupD sys "utilities_included" "") == "true" then "included"
    else "not included"
  let min_stay := lookupD sys "minimum_stay" "1"
  let deposit := lookupD sys "deposit" ""
  let cleaning_fee := lookupD sys "cleaning_fee" ""
  let pet_deposit := lookupD sys "pet_deposit" ""
  let amenities := lookupD sys "amenities" ""
  let pets := lookupD sys "pets" "Ask about pet policy"
  let smoking := lookupD sys "smoking" ""
  let base :=
    "The " ++ name ++ " is located at " ++ address ++ " in " ++ city_state ++ ".\n"
      ++ "It\x27s a " ++ bedrooms ++ " bedroom, " ++ bathrooms ++ " bathroom unit. " ++ layout
      ++ "\n"
      ++ (if size != "" then "The space is " ++ size ++ " square feet. " else "") ++ "\n"
      ++ "Monthly rent is $" ++ rent ++ " with utilities " ++ utilities ++ ". Minimum stay is "
      ++ min_stay ++ " month.\n"
      ++ "Amenities include: " ++ pyReplaceChar amenities ',' ", " ++ ".\n"
      ++ "Pet policy: " ++ pets ++ ". "
      ++ (if smoking == "Not allowed" then "No smoking allowed." else "")
  let base := if deposit != "" then base ++ " Security deposit is $" ++ deposit ++ " refundable."
    else base
  let base := if cleaning_fee != "" then
      base ++ " There\x27s a $" ++ cleaning_fee ++ " cleaning fee."
    else base
  let base := if pet_deposit != "" then
      base ++ " Pet deposit is $" ++ pet_deposit ++ " refundable."
    else base
  if ctx.isEmpty then base
  else base ++ "\n\nAdditional information:" ++ detail_context_lines ctx

/-- `get_property_details` over an explicit record list (the spec calls
this `detail`). -/
def get_property_details (property_name : String) (properties : List Property) : String :=
  match find_property property_name properties with
  | none =>
    "I couldn\x27t find a property matching \x27" ++ property_name
      ++ "\x27. We have properties in: "
      ++ String.intercalate ", "
          (properties.map (fun prop => lookupD prop.system "nickname" "unknown"))
      ++ "."
  | some p => property_detail p

/-- `check_availability` over an explicit record list. -/
def check_availability (property_name move_in move_out : String)
    (properties : List Property) : String :=
  match find_property property_name properties with
  | none => "I couldn\x27t find that property. Would you like to hear about what we have available?"
  | some p =>
    let min_stay := lookupD p.system "minimum_stay" "1"
    let name := lookupD p.system "name" "the property"
    "The " ++ name ++ " has a minimum stay of " ++ min_stay ++ " month.\n"
      ++ "For your dates of " ++ move_in ++ " to " ++ move_out
      ++ ", availability changes regularly based on bookings.\n"
      ++ "I\x27d recommend submitting an application so we can confirm exact availability"
      ++ " for your dates.\nWould you like information on how to apply?"

/-- Overwrite the two availability attributes of a record; used to state
that `check_availability` performs no date arithmetic against them. -/
def setAvail (v w : String) (p : Property) : Property :=
  Property.mk p.id (setKV (setKV p.system "available_from" v) "available_until" w) p.context

/-! ### Basic facts about the string model -/

/-- Build a containment fact from an explicit decomposition. -/
theorem strContains_intro {h t : String} (hi : t.data <:+: h.data) : strContains h t = true :=
  decide_eq_true hi

/-- Read a containment fact back as a decomposition. -/
theorem strContains_elim {h t : String} (hc : strContains h t = true) : t.data <:+: h.data :=
  of_decide_eq_true hc

/-- Every string contains itself. -/
theorem strContains_refl (s : String) : strContains s s = true :=
  strContains_intro ⟨[], [], by simp⟩

/-- Containment survives appending on the right. -/
theorem strContains_append_right {x b : String} (h : strContains x b = true) (y : String) :
    strContains (x ++ y) b = true := by
  rcases strContains_elim h with ⟨s, t, e⟩
  exact strContains_intro ⟨s, t ++ y.data, by rw [String.data_append, ← e]; simp⟩

/-- Containment survives appending on the left. -/
theorem strContains_append_left {x b : String} (h : strContains x b = true) (y : String) :
    strContains (y ++ x) b = true := by
  rcases strContains_elim h with ⟨s, t, e⟩
  exact strContains_intro ⟨y.data ++ s, t, by rw [String.data_append, ← e]; simp⟩

/-- The empty needle is contained in every string, as in Python. -/
theorem strContains_empty (s : String) : strContains s "" = true :=
  strContains_intro ⟨[], s.data, by simp⟩

/-- Lowercasing keeps a string non-empty. -/
theorem pyLower_ne_empty {s : String} (h : s ≠ "") : pyLower s ≠ "" := by
  intro hc
  apply h
  apply String.ext
  have h2 : s.data.map Char.toLower = [] := congrArg String.data hc
  simpa using List.map_eq_nil_iff.mp h2

/-! ### C2, C4, C8 -/

/-- C2: the store adapter fails soft — on every backing-source failure
(unset database URL, connection failure, or an error raised while querying
or grouping) `load_properties_from_db` returns the empty record list, the
error surfacing only as printed diagnostics; there is no partial
result and no exception reaches the caller (the embedding is a total
function). -/
theorem load_properties_from_db_fails_soft :
    ∀ o : DBOutcome, (∀ rows : List Row, o ≠ DBOutcome.ok rows) →
      (load_properties_from_db o).1 = [] ∧ (load_properties_from_db o).2 ≠ [] := by
  intro o h
  cases o with
  | noUrl => exact ⟨rfl, by simp [load_properties_from_db]⟩
  | connectError m => exact ⟨rfl, by simp [load_properties_from_db]⟩
  | queryError m => exact ⟨rfl, by simp [load_properties_from_db]⟩
  | ok rows => exact absurd rfl (h rows)

/-- Witness for C2 at the unset-URL outcome. -/
theorem load_properties_from_db_fails_soft_witness :
    (load_properties_from_db DBOutcome.noUrl).1 = []
      ∧ (load_properties_from_db DBOutcome.noUrl).2 ≠ [] :=
  load_properties_from_db_fails_soft DBOutcome.noUrl (fun _ h => DBOutcome.noConfusion h)

/-- C8: `find_property` is case-insensitive — queries with the same
lowercasing are indistinguishable, since the scan only ever uses the
lowered query. -/
theorem find_property_case_insensitive :
    ∀ (q q2 : String) (ps : List Property), pyLower q = pyLower q2 →
      find_property q ps = find_property q2 ps := by
  intro q q2 ps h
  unfold find_property
  rw [h]

/-- A record whose nickname attribute is `boulder`. -/
def wC8 : Property := Property.mk "w8" [("nickname", "boulder")] []

/-- Witness for C8: `BOULDER` and `boulder` resolve identically, to the
record nicknamed `boulder`. -/
theorem find_property_case_insensitive_witness :
    find_property "BOULDER" [wC8] = find_property "boulder" [wC8]
      ∧ find_property "boulder" [wC8] = some wC8 :=
  ⟨find_property_case_insensitive "BOULDER" "boulder" [wC8] (by decide), by decide⟩

/-- The single record of the spec example behind C4: rent is stored under
the attribute key `rent`, not `monthly_rent`. -/
def s1rec : Property :=
  Property.mk "s1" [("name", "Downtown Studio"), ("bedrooms", "0"), ("rent", "1800")] []

/-- C4 counterexample: on the example record the summary contains neither
`studio` (the name renders capitalised, and containment is
case-sensitive) nor `1800` (the formatter reads `monthly_rent`, which the
record does not carry, so the pricing placeholder is used). -/
theorem s1_example_counterexample :
    strContains (get_all_properties [s1rec]) "studio" = false
      ∧ strContains (get_all_properties [s1rec]) "1800" = false := by decide

/-- C4 amended: the summary of the example record contains `Studio`
(capitalised) and the placeholder `Contact for pricing` instead of `1800`;
`find_property "studio"` does return the record, but via the
name-contains rule — the special-cased studio term requires the bedrooms
attribute to equal `studio`, and nothing normalises `0` to `studio`, so
that guard is false here while the name-rule guard is true. -/
theorem s1_example_amended :
    strContains (get_all_properties [s1rec]) "Studio" = true
      ∧ strContains (get_all_properties [s1rec]) "Contact for pricing" = true
      ∧ find_property "studio" [s1rec] = some s1rec
      ∧ (strContains (pyLower "studio") "studio" && bedroomsOf s1rec == "studio") = false
      ∧ (nameOf s1rec != "" && strContains (nameOf s1rec) (pyLower "studio")) = true := by decide

/-! ### The record scan of find_property -/

/-- The scan is `List.find?` of the ordered predicate chain. -/
theorem findAux_eq_find? (ql : String) : ∀ ps : List Property,
    findAux ql ps = ps.find? (matchRecord ql) := by
  intro ps
  induction ps with
  | nil => rfl
  | cons p ps ih =>
    cases h : matchRecord ql p with
    | true => simp [findAux, h, List.find?_cons_of_pos]
    | false => simp [findAux, h, List.find?_cons_of_neg, ih]

/-- Records that match nothing are skipped by the scan. -/
theorem findAux_append_none (ql : String) (pre l : List Property)
    (h : ∀ p ∈ pre, matchRecord ql p = false) :
    findAux ql (pre ++ l) = findAux ql l := by
  induction pre with
  | nil => rfl
  | cons p ps ih =>
    have hp : matchRecord ql p = false := h p (List.mem_cons_self p ps)
    simp only [List.cons_append, findAux, hp]
    exact ih (fun q hq => h q (List.mem_cons_of_mem p hq))

/-- Rule 1 alone makes a record match. -/
theorem matchRecord_of_nickname {ql : String} {p : Property}
    (h : (ql == nicknameOf p) = true) : matchRecord ql p = true := by
  simp [matchRecord, h]

/-- Rule 2 makes a record match once rule 1 has failed. -/
theorem matchRecord_of_city {ql : String} {p : Property}
    (hn : nicknameOf p ≠ ql)
    (hc : (cityOf p != "" && (strContains (cityOf p) ql || strContains ql (cityOf p))) = true) :
    matchRecord ql p = true := by
  have h1 : (ql == nicknameOf p) = false := beq_eq_false_iff_ne.mpr (fun h => hn h.symm)
  simp [matchRecord, h1, hc]

/-- C1: `find_property` scans records in list order, testing the five
predicates of `matchRecord` in their fixed priority order, and returns the
first record satisfying any predicate (`List.find?`), `none` when no record
satisfies any; in particular an earlier record matching only via the
city-substring rule shadows a later record whose nickname equals the query
exactly, provided the records before it match nothing. -/
theorem find_property_first_match_wins :
    (∀ (query : String) (ps : List Property),
        find_property query ps = ps.find? (matchRecord (pyLower query))
          ∧ (find_property query ps = none ↔ ∀ p ∈ ps, matchRecord (pyLower query) p = false))
      ∧ (∀ (query : String) (pre mid post : List Property) (A B : Property),
          (∀ p ∈ pre, matchRecord (pyLower query) p = false) →
          nicknameOf A ≠ pyLower query →
          (cityOf A != ""
            && (strContains (cityOf A) (pyLower query)
                || strContains (pyLower query) (cityOf A))) = true →
          nicknameOf B = pyLower query →
          find_property query (pre ++ (A :: (mid ++ (B :: post)))) = some A) := by
  constructor
  · intro query ps
    refine ⟨findAux_eq_find? (pyLower query) ps, ?_⟩
    rw [find_property, findAux_eq_find?, List.find?_eq_none]
    simp
  · intro query pre mid post A B hpre hnick hcity hB
    rw [find_property, findAux_append_none _ _ _ hpre]
    simp [findAux, matchRecord_of_city hnick hcity]

/-- A record matching `boulder` only through its city attribute. -/
def wA : Property := Property.mk "a1" [("city", "Boulder Creek")] []

/-- A record whose nickname is exactly `boulder`. -/
def wB : Property := Property.mk "b1" [("nickname", "boulder")] []

/-- Witness for C1: the earlier city-substring match `wA` shadows the later
exact-nickname match `wB`. -/
theorem find_property_first_match_wins_witness :
    find_property "boulder" ([] ++ wA :: [] ++ wB :: []) = some wA :=
  find_property_first_match_wins.2 "boulder" [] [] [] wA wB
    (fun p h => absurd h (List.not_mem_nil p)) (by decide) (by decide) (by decide)

/-- C9: the empty query is matched by a first record with a missing or
empty nickname (rule 1, both sides normalise to the empty string) or with
a non-empty city (rule 2, the empty query is a substring of the city), so
`find_property ""` returns the first record in either case. -/
theorem find_property_empty_query_first_record :
    (∀ p : Property, lookupD p.system "nickname" "" = "" → (pyLower "" == nicknameOf p) = true)
      ∧ (∀ p : Property, lookupD p.system "city" "" ≠ "" →
          (cityOf p != ""
            && (strContains (cityOf p) (pyLower "") || strContains (pyLower "") (cityOf p)))
            = true)
      ∧ (∀ (p : Property) (ps : List Property),
          lookupD p.system "nickname" "" = "" ∨ lookupD p.system "city" "" ≠ "" →
          find_property "" (p :: ps) = some p) := by
  have hnick : ∀ p : Property, lookupD p.system "nickname" "" = "" →
      (pyLower "" == nicknameOf p) = true := by
    intro p h
    unfold nicknameOf
    rw [h]
    exact beq_self_eq_true _
  have hcity : ∀ p : Property, lookupD p.system "city" "" ≠ "" →
      (cityOf p != ""
        && (strContains (cityOf p) (pyLower "") || strContains (pyLower "") (cityOf p)))
        = true := by
    intro p h
    have h1 : cityOf p ≠ "" := pyLower_ne_empty h
    have h2 : strContains (cityOf p) (pyLower "") = true := strContains_empty (cityOf p)
    simp [h1, h2]
  refine ⟨hnick, hcity, ?_⟩
  intro p ps h
  rw [find_property]
  have hm : matchRecord (pyLower "") p = true := by
    rcases h with h | h
    · exact matchRecord_of_nickname (hnick p h)
    · by_cases hn : (pyLower "" == nicknameOf p) = true
      · exact matchRecord_of_nickname hn
      · have hne : nicknameOf p ≠ pyLower "" := by
          intro he
          exact hn (by rw [he]; exact beq_self_eq_true _)
        exact matchRecord_of_city hne (hcity p h)
  simp [findAux, hm]

/-- A first record with a non-empty city attribute. -/
def wC9 : Property := Property.mk "w9" [("nickname", "x"), ("city", "Boulder")] []

/-- Witness for C9 at a record with a non-empty city. -/
theorem find_property_empty_query_first_record_witness :
    find_property "" [wC9] = some wC9 :=
  find_property_empty_query_first_record.2.2 wC9 [] (Or.inr (by decide))

/-! ### C3: summarize_all -/

/-- C3: `get_all_properties` on the empty record list returns the fixed
could-not-load sentence; on a non-empty list it returns the per-record
sentences joined by a single space, one per record in record order, and
every record sentence contains the record rent value (defaulting to
`Contact for pricing`) and the record name (defaulting to
`Unknown Property`). -/
theorem get_all_properties_spec :
    get_all_properties []
        = "I\x27m sorry, I couldn\x27t load property information right now. Please try again later."
      ∧ (∀ ps : List Property, ps ≠ [] →
          get_all_properties ps = String.intercalate " " (ps.map property_summary))
      ∧ (∀ p : Property,
          strContains (property_summary p) (lookupD p.system "monthly_rent" "Contact for pricing")
              = true
            ∧ strContains (property_summary p) (lookupD p.system "name" "Unknown Property")
              = true) := by
  refine ⟨rfl, ?_, ?_⟩
  · intro ps h
    cases ps with
    | nil => exact absurd rfl h
    | cons p ps2 => rfl
  · intro p
    constructor
    · simp only [property_summary]
      exact strContains_append_right (strContains_append_left (strContains_refl _) _) _
    · simp only [property_summary]
      exact strContains_append_right (strContains_append_right (strContains_append_right
        (strContains_append_right (strContains_append_right (strContains_append_right
          (strContains_append_right (strContains_append_left (strContains_refl _) _) _) _) _)
            _) _) _) _

/-- A record carrying a name and a rent. -/
def wC3 : Property := Property.mk "w3" [("name", "Cedar House"), ("monthly_rent", "2100")] []

/-- Witness for C3 on a one-record list. -/
theorem get_all_properties_spec_witness :
    get_all_properties [wC3] = String.intercalate " " ([wC3].map property_summary)
      ∧ strContains (property_summary wC3) (lookupD wC3.system "monthly_rent" "Contact for pricing")
          = true :=
  ⟨get_all_properties_spec.2.1 [wC3] (by simp), (get_all_properties_spec.2.2 wC3).1⟩

/-! ### C5: detail on an unknown query -/

/-- C5: on a query matching no record, `get_property_details` returns the
fixed not-found sentence naming the query verbatim and listing the
nickname of every record with `unknown` substituted for missing nicknames;
the result contains the query and is never empty (and, the embedding being
a total function, nothing is raised). -/
theorem get_property_details_no_match_spec :
    ∀ (q : String) (ps : List Property), find_property q ps = none →
      get_property_details q ps
          = "I couldn\x27t find a property matching \x27" ++ q ++ "\x27. We have properties in: "
            ++ String.intercalate ", "
                (ps.map (fun prop => lookupD prop.system "nickname" "unknown"))
            ++ "."
        ∧ strContains (get_property_details q ps) q = true
        ∧ get_property_details q ps ≠ "" := by
  intro q ps h
  have he : get_property_details q ps
      = "I couldn\x27t find a property matching \x27" ++ q ++ "\x27. We have properties in: "
        ++ String.intercalate ", "
            (ps.map (fun prop => lookupD prop.system "nickname" "unknown"))
        ++ "." := by
    unfold get_property_details
    rw [h]
  have hq : strContains (get_property_details q ps) q = true := by
    rw [he]
    exact strContains_append_right (strContains_append_right (strContains_append_right
      (strContains_append_left (strContains_refl _) _) _) _) _
  have hI : strContains (get_property_details q ps) "I" = true := by
    rw [he]
    exact strContains_append_right (strContains_append_right (strContains_append_right
      (strContains_append_right (by decide) _) _) _) _
  refine ⟨he, hq, ?_⟩
  intro hc
  rw [hc] at hI
  exact absurd hI (by decide)

/-- A record that does not match the query `zzz`. -/
def wC5 : Property := Property.mk "w5" [("name", "Pine Cottage")] []

/-- Witness for C5 at the unknown query `zzz`. -/
theorem get_property_details_no_match_spec_witness :
    strContains (get_property_details "zzz" [wC5]) "zzz" = true
      ∧ get_property_details "zzz" [wC5] ≠ "" :=
  ⟨(get_property_details_no_match_spec "zzz" [wC5] (by decide)).2.1,
   (get_property_details_no_match_spec "zzz" [wC5] (by decide)).2.2⟩

/-! ### C7: check_availability -/

/-- Updating an absent or present key leaves the other keys alone. -/
theorem lookupO_setKV_ne {a k : String} (h : a ≠ k) (s : List (String × String)) (v : String) :
    lookupO (setKV s a v) k = lookupO s k := by
  induction s with
  | nil => simp [setKV, lookupO, h]
  | cons kv rest ih =>
    by_cases h2 : kv.1 = a
    · simp [setKV, lookupO, h2, h]
    · simp [setKV, lookupO, h2, ih]

/-- `lookupD` version of `lookupO_setKV_ne`. -/
theorem lookupD_setKV_ne {a k : String} (h : a ≠ k) (s : List (String × String)) (v d : String) :
    lookupD (setKV s a v) k d = lookupD s k d := by
  unfold lookupD
  rw [lookupO_setKV_ne h]

/-- Overwriting the two availability attributes leaves every other system
attribute unchanged. -/
theorem lookupD_setAvail {k : String} (h1 : k ≠ "available_from") (h2 : k ≠ "available_until")
    (v w d : String) (p : Property) :
    lookupD (setAvail v w p).system k d = lookupD p.system k d := by
  have hs : (setAvail v w p).system
      = setKV (setKV p.system "available_from" v) "available_until" w := rfl
  rw [hs, lookupD_setKV_ne (fun he => h2 he.symm), lookupD_setKV_ne (fun he => h1 he.symm)]

/-- The four attributes read by the matcher ignore the availability keys. -/
theorem matchAttrs_setAvail (v w : String) (p : Property) :
    nicknameOf (setAvail v w p) = nicknameOf p ∧ cityOf (setAvail v w p) = cityOf p
      ∧ nameOf (setAvail v w p) = nameOf p ∧ bedroomsOf (setAvail v w p) = bedroomsOf p := by
  refine ⟨?_, ?_, ?_, ?_⟩
  · unfold nicknameOf; rw [lookupD_setAvail (by decide) (by decide)]
  · unfold cityOf; rw [lookupD_setAvail (by decide) (by decide)]
  · unfold nameOf; rw [lookupD_setAvail (by decide) (by decide)]
  · unfold bedroomsOf; rw [lookupD_setAvail (by decide) (by decide)]

/-- The matcher cannot see the availability attributes. -/
theorem matchRecord_setAvail (ql v w : String) (p : Property) :
    matchRecord ql (setAvail v w p) = matchRecord ql p := by
  obtain ⟨h1, h2, h3, h4⟩ := matchAttrs_setAvail v w p
  unfold matchRecord
  rw [h1, h2, h3, h4]

/-- The scan commutes with overwriting the availability attributes. -/
theorem findAux_map_setAvail (ql v w : String) : ∀ ps : List Property,
    findAux ql (ps.map (setAvail v w)) = Option.map (setAvail v w) (findAux ql ps) := by
  intro ps
  induction ps with
  | nil => rfl
  | cons p ps ih =>
    simp only [List.map_cons, findAux, matchRecord_setAvail]
    cases h : matchRecord ql p
    · simp [h, ih]
    · simp [h]

/-- The fixed not-found reply of `check_availability`. -/
theorem check_availability_none (q mi mo : String) (ps : List Property)
    (h : find_property q ps = none) :
    check_availability q mi mo ps
      = "I couldn\x27t find that property. Would you like to hear about what we have available?" := by
  unfold check_availability
  rw [h]

/-- The matched reply of `check_availability` as an explicit template. -/
theorem check_availability_some (q mi mo : String) (ps : List Property) (p : Property)
    (h : find_property q ps = some p) :
    check_availability q mi mo ps
      = "The " ++ lookupD p.system "name" "the property" ++ " has a minimum stay of "
        ++ lookupD p.system "minimum_stay" "1" ++ " month.\n" ++ "For your dates of "
        ++ mi ++ " to " ++ mo ++ ", availability changes regularly based on bookings.\n"
        ++ "I\x27d recommend submitting an application so we can confirm exact availability"
        ++ " for your dates.\nWould you like information on how to apply?" := by
  unfold check_availability
  rw [h]

/-- C7: on no match `check_availability` returns the fixed not-found
sentence; on a match it reports the record minimum stay and echoes both
date arguments verbatim, whatever their format; and its output is
invariant under overwriting the `available_from` and `available_until`
attributes of every record, so no date-range arithmetic is performed. -/
theorem check_availability_spec :
    ∀ (q mi mo : String) (ps : List Property),
      (find_property q ps = none →
          check_availability q mi mo ps
            = "I couldn\x27t find that property. Would you like to hear about what we have available?")
        ∧ (∀ p : Property, find_property q ps = some p →
            check_availability q mi mo ps
                = "The " ++ lookupD p.system "name" "the property" ++ " has a minimum stay of "
                  ++ lookupD p.system "minimum_stay" "1" ++ " month.\n" ++ "For your dates of "
                  ++ mi ++ " to " ++ mo ++ ", availability changes regularly based on bookings.\n"
                  ++ "I\x27d recommend submitting an application so we can confirm exact availability"
                  ++ " for your dates.\nWould you like information on how to apply?"
              ∧ strContains (check_availability q mi mo ps) mi = true
              ∧ strContains (check_availability q mi mo ps) mo = true)
        ∧ (∀ v w : String,
            check_availability q mi mo (ps.map (setAvail v w))
              = check_availability q mi mo ps) := by
  intro q mi mo ps
  refine ⟨check_availability_none q mi mo ps, ?_, ?_⟩
  · intro p h
    have he := check_availability_some q mi mo ps p h
    refine ⟨he, ?_, ?_⟩
    · rw [he]
      exact strContains_append_right (strContains_append_right (strContains_append_right
        (strContains_append_right (strContains_append_right
          (strContains_append_left (strContains_refl _) _) _) _) _) _) _
    · rw [he]
      exact strContains_append_right (strContains_append_right (strContains_append_right
        (strContains_append_left (strContains_refl _) _) _) _) _
  · intro v w
    cases hf : find_property q ps with
    | none =>
      have h2 : find_property q (ps.map (setAvail v w)) = none := by
        unfold find_property at hf ⊢
        rw [findAux_map_setAvail, hf]
        rfl
      rw [check_availability_none _ _ _ _ h2, check_availability_none _ _ _ _ hf]
    | some p =>
      have h2 : find_property q (ps.map (setAvail v w)) = some (setAvail v w p) := by
        unfold find_property at hf ⊢
        rw [findAux_map_setAvail, hf]
        rfl
      rw [check_availability_some _ _ _ _ _ h2, check_availability_some _ _ _ _ _ hf,
        lookupD_setAvail (by decide) (by decide), lookupD_setAvail (by decide) (by decide)]

/-- A record matched by the query `lander`. -/
def wC7 : Property :=
  Property.mk "w7" [("nickname", "lander"), ("name", "Blue Door"), ("minimum_stay", "2")] []

/-- Witness for C7: the not-found reply on the empty list, and the echoed
dates `March 2025` and `asap` on a match. -/
theorem check_availability_spec_witness :
    check_availability "zzz" "a" "b" []
        = "I couldn\x27t find that property. Would you like to hear about what we have available?"
      ∧ strContains (check_availability "lander" "March 2025" "asap" [wC7]) "March 2025" = true
      ∧ strContains (check_availability "lander" "March 2025" "asap" [wC7]) "asap" = true :=
  ⟨(check_availability_spec "zzz" "a" "b" []).1 (by decide),
   ((check_availability_spec "lander" "March 2025" "asap" [wC7]).2.1 wC7 (by decide)).2.1,
   ((check_availability_spec "lander" "March 2025" "asap" [wC7]).2.1 wC7 (by decide)).2.2⟩

/-! ### Structure of the grouping loop -/

/-- Applying a row does not change the record id. -/
theorem applyRow_id (p : Property) (k v : String) : (applyRow p k v).id = p.id := by
  unfold applyRow
  split <;> rfl

/-- Replaying no rows is the identity. -/
theorem extendProp_nil (p : Property) : extendProp p [] = p := rfl

/-- Replaying a row list one row at a time. -/
theorem extendProp_cons (p : Property) (r : Row) (rs : List Row) :
    extendProp p (r :: rs) = extendProp (applyRow p r.key r.value) rs := rfl

/-- Replaying a row list from the right. -/
theorem extendProp_concat (p : Property) (l : List Row) (r : Row) :
    extendProp p (l ++ [r]) = applyRow (extendProp p l) r.key r.value := by
  unfold extendProp
  rw [List.foldl_append]
  rfl

/-- Replaying rows does not change the record id. -/
theorem extendProp_id (rows : List Row) : ∀ p : Property, (extendProp p rows).id = p.id := by
  induction rows with
  | nil => intro p; rfl
  | cons r rs ih =>
    intro p
    rw [extendProp_cons, ih, applyRow_id]

/-- Inserting a row touches the id list only when its id is new, in which
case the id is appended. -/
theorem ids_insertRow (r : Row) : ∀ m : List Property,
    (insertRow m r).map Property.id
      = if r.propId ∈ m.map Property.id then m.map Property.id
        else m.map Property.id ++ [r.propId] := by
  intro m
  induction m with
  | nil => simp [insertRow, applyRow_id, freshProp]
  | cons p ps ih =>
    by_cases h : p.id = r.propId
    · simp [insertRow, h, applyRow_id]
    · by_cases h2 : r.propId ∈ ps.map Property.id
      · simp [insertRow, h, Ne.symm h, ih, h2]
      · simp [insertRow, h, Ne.symm h, ih, h2]

/-- `firstSeen` only looks at membership in `seen`. -/
theorem firstSeen_congr : ∀ (rows : List Row) (s s2 : List String),
    (∀ x, x ∈ s ↔ x ∈ s2) → firstSeen s rows = firstSeen s2 rows := by
  intro rows
  induction rows with
  | nil => intro s s2 h; rfl
  | cons r rs ih =>
    intro s s2 h
    simp only [firstSeen]
    by_cases hm : r.propId ∈ s
    · rw [if_pos hm, if_pos ((h r.propId).mp hm)]
      exact ih s s2 h
    · rw [if_neg hm, if_neg (fun hc => hm ((h r.propId).mpr hc))]
      rw [ih (r.propId :: s) (r.propId :: s2) (by intro x; simp [h x])]

/-- The ids of the accumulated map grow by the first-seen new ids. -/
theorem ids_foldl : ∀ (rows : List Row) (m : List Property),
    (List.foldl insertRow m rows).map Property.id
      = m.map Property.id ++ firstSeen (m.map Property.id) rows := by
  intro rows
  induction rows with
  | nil => intro m; simp [firstSeen]
  | cons r rs ih =>
    intro m
    rw [List.foldl_cons, ih]
    by_cases h : r.propId ∈ m.map Property.id
    · rw [ids_insertRow, if_pos h]
      simp only [firstSeen]
      rw [if_pos h]
    · rw [ids_insertRow, if_neg h]
      simp only [firstSeen]
      rw [if_neg h]
      rw [firstSeen_congr rs (m.map Property.id ++ [r.propId]) (r.propId :: m.map Property.id)
        (by intro x; simp [or_comm])]
      simp

/-- The ids produced by `groupRows` are the first-seen ids of the rows. -/
theorem groupRows_ids (rows : List Row) :
    (groupRows rows).map Property.id = firstSeen [] rows := by
  have h := ids_foldl rows []
  simpa [groupRows] using h

/-- `firstSeen` never repeats an id nor returns a seen one. -/
theorem firstSeen_nodup : ∀ (rows : List Row) (seen : List String),
    (firstSeen seen rows).Nodup ∧ ∀ x ∈ firstSeen seen rows, x ∉ seen := by
  intro rows
  induction rows with
  | nil => intro seen; exact ⟨List.nodup_nil, by simp [firstSeen]⟩
  | cons r rs ih =>
    intro seen
    simp only [firstSeen]
    by_cases hm : r.propId ∈ seen
    · rw [if_pos hm]
      exact ih seen
    · rw [if_neg hm]
      obtain ⟨hnd, hni⟩ := ih (r.propId :: seen)
      constructor
      · exact List.nodup_cons.mpr
          ⟨fun hc => (hni r.propId hc) (List.mem_cons_self _ _), hnd⟩
      · intro x hx
        rcases List.mem_cons.mp hx with he | hx2
        · rw [he]; exact hm
        · intro hs
          exact (hni x hx2) (List.mem_cons_of_mem _ hs)

/-- Every first-seen id comes from some row. -/
theorem firstSeen_sub : ∀ (rows : List Row) (seen : List String) (x : String),
    x ∈ firstSeen seen rows → x ∈ rows.map Row.propId := by
  intro rows
  induction rows with
  | nil => intro seen x h; exact absurd h (List.not_mem_nil x)
  | cons r rs ih =>
    intro seen x h
    simp only [firstSeen] at h
    by_cases hm : r.propId ∈ seen
    · rw [if_pos hm] at h
      simp [ih seen x h]
    · rw [if_neg hm] at h
      rcases List.mem_cons.mp h with he | h2
      · simp [he]
      · simp [ih _ x h2]

/-- A row with a new id appends a fresh record. -/
theorem insertRow_append {m : List Property} {r : Row}
    (h : r.propId ∉ m.map Property.id) :
    insertRow m r = m ++ [applyRow (freshProp r.propId) r.key r.value] := by
  induction m with
  | nil => rfl
  | cons p ps ih =>
    have h1 : p.id ≠ r.propId := by
      intro he
      exact h (by simp [he])
    have h2 : r.propId ∉ ps.map Property.id := by
      intro hc
      exact h (by simp [hc])
    simp [insertRow, h1, ih h2]

/-- Updating by an if on the id fixes every record of another id. -/
theorem map_if_id {ps : List Property} {r : Row} (h : ∀ q ∈ ps, q.id ≠ r.propId) :
    ps.map (fun q => if q.id = r.propId then applyRow q r.key r.value else q) = ps := by
  induction ps with
  | nil => rfl
  | cons q qs ih =>
    rw [List.map_cons, if_neg (h q (List.mem_cons_self q qs)),
      ih (fun x hx => h x (List.mem_cons_of_mem q hx))]

/-- A row with a known id updates exactly the record of that id (ids being
distinct, the first match is the only one). -/
theorem insertRow_update : ∀ {m : List Property} {r : Row},
    (m.map Property.id).Nodup → r.propId ∈ m.map Property.id →
    insertRow m r
      = m.map (fun p => if p.id = r.propId then applyRow p r.key r.value else p) := by
  intro m
  induction m with
  | nil => intro r _ h; simp at h
  | cons p ps ih =>
    intro r hd h
    by_cases h1 : p.id = r.propId
    · have hni : ∀ q ∈ ps, q.id ≠ r.propId := by
        intro q hq he
        exact (List.nodup_cons.mp hd).1 (h1 ▸ he ▸ List.mem_map_of_mem Property.id hq)
      simp [insertRow, h1, map_if_id hni]
    · have h2 : r.propId ∈ ps.map Property.id := by
        rw [List.map_cons] at h
        rcases List.mem_cons.mp h with he | hm
        · exact absurd he.symm h1
        · exact hm
      simp [insertRow, h1, Ne.symm h1, ih (List.nodup_cons.mp hd).2 h2]

/-- Keep the head row when its id matches the filter. -/
theorem filter_rows_cons_pos {r : Row} {pid : String} (h : r.propId = pid) (rs : List Row) :
    (r :: rs).filter (fun r2 => r2.propId == pid)
      = r :: rs.filter (fun r2 => r2.propId == pid) := by
  simp [List.filter_cons, h]

/-- Drop the head row when its id misses the filter. -/
theorem filter_rows_cons_neg {r : Row} {pid : String} (h : r.propId ≠ pid) (rs : List Row) :
    (r :: rs).filter (fun r2 => r2.propId == pid)
      = rs.filter (fun r2 => r2.propId == pid) := by
  simp [List.filter_cons, h]

/-- Main characterisation of the accumulated map: every record either
extends a starting record with the rows of its id, or is freshly built
from the rows of a new id. -/
theorem mem_foldl_insertRow : ∀ (rows : List Row) (m : List Property),
    (m.map Property.id).Nodup → ∀ p ∈ List.foldl insertRow m rows,
      (∃ q ∈ m, q.id = p.id ∧ p = extendProp q (rows.filter (fun r => r.propId == q.id)))
        ∨ (p.id ∉ m.map Property.id
            ∧ p = extendProp (freshProp p.id) (rows.filter (fun r => r.propId == p.id))) := by
  intro rows
  induction rows with
  | nil =>
    intro m _ p hp
    left
    exact ⟨p, hp, rfl, by simp [extendProp]⟩
  | cons r rs ih =>
    intro m hd p hp
    rw [List.foldl_cons] at hp
    have hd2 : ((insertRow m r).map Property.id).Nodup := by
      rw [ids_insertRow]
      by_cases h : r.propId ∈ m.map Property.id
      · rw [if_pos h]
        exact hd
      · rw [if_neg h]
        simp [List.nodup_append, hd, h]
    rcases ih (insertRow m r) hd2 p hp with ⟨q2, hq2, hid, hpe⟩ | ⟨hni, hpe⟩
    · by_cases hmem : r.propId ∈ m.map Property.id
      · rw [insertRow_update hd hmem] at hq2
        rcases List.mem_map.mp hq2 with ⟨q, hqm, hqe⟩
        by_cases hq : q.id = r.propId
        · rw [if_pos hq] at hqe
          left
          have hqid : q2.id = q.id := by rw [← hqe, applyRow_id]
          refine ⟨q, hqm, by rw [← hid, hqid], ?_⟩
          rw [filter_rows_cons_pos hq.symm, extendProp_cons, hqe, hpe, hqid]
        · rw [if_neg hq] at hqe
          left
          refine ⟨q, hqm, by rw [← hid, ← hqe], ?_⟩
          rw [filter_rows_cons_neg (fun he => hq he.symm), hpe, ← hqe]
      · rw [insertRow_append hmem] at hq2
        rcases List.mem_append.mp hq2 with hqm | hql
        · left
          have hqn : q2.id ≠ r.propId := by
            intro he
            exact hmem (he ▸ List.mem_map_of_mem Property.id hqm)
          refine ⟨q2, hqm, hid, ?_⟩
          rw [filter_rows_cons_neg (fun he => hqn he.symm), hpe]
        · have hqe : q2 = applyRow (freshProp r.propId) r.key r.value :=
            List.mem_singleton.mp hql
          have hqid : q2.id = r.propId := by
            rw [hqe, applyRow_id]
            rfl
          right
          have hpid : p.id = r.propId := by rw [← hid, hqid]
          constructor
          · rw [hpid]
            exact hmem
          · rw [hpid, filter_rows_cons_pos rfl, extendProp_cons]
            rw [hqe, applyRow_id] at hpe
            rw [show (freshProp r.propId).id = r.propId from rfl] at hpe
            exact hpe
    · rw [ids_insertRow] at hni
      by_cases hmem : r.propId ∈ m.map Property.id
      · rw [if_pos hmem] at hni
        right
        have hne : r.propId ≠ p.id := by
          intro he
          exact hni (he ▸ hmem)
        refine ⟨hni, ?_⟩
        rw [filter_rows_cons_neg hne]
        exact hpe
      · rw [if_neg hmem] at hni
        have h1 : p.id ∉ m.map Property.id := by
          intro hc
          exact hni (List.mem_append.mpr (Or.inl hc))
        have h2 : r.propId ≠ p.id := by
          intro he
          exact hni (List.mem_append.mpr (Or.inr (by simp [he])))
        right
        refine ⟨h1, ?_⟩
        rw [filter_rows_cons_neg h2]
        exact hpe

/-- Every record produced by `groupRows` is the fresh record of its id
extended with exactly the rows of its id, in row order. -/
theorem groupRows_char : ∀ (rows : List Row) (p : Property), p ∈ groupRows rows →
    p = extendProp (freshProp p.id) (rows.filter (fun r => r.propId == p.id)) := by
  intro rows p hp
  rcases mem_foldl_insertRow rows [] (by simp) p hp with ⟨q, hq, _, _⟩ | ⟨_, hpe⟩
  · exact absurd hq (List.not_mem_nil q)
  · exact hpe

/-! ### What each record holds, key by key -/

/-- Assigning a key makes it present with the assigned value. -/
theorem lookupO_setKV_self (s : List (String × String)) (k v : String) :
    lookupO (setKV s k v) k = some v := by
  induction s with
  | nil => simp [setKV, lookupO]
  | cons kv rest ih =>
    by_cases h : kv.1 = k
    · simp [setKV, lookupO, h]
    · simp [setKV, lookupO, h, ih]

/-- An underscore-prefixed key is the underscored form of its stripped
form. -/
theorem eq_underscored_of_startsU {s : String} (h : startsU s = true) :
    s = underscored (dropU s) := by
  obtain ⟨data⟩ := s
  cases data with
  | nil => simp [startsU] at h
  | cons c cs =>
    have hc : c = '_' := by
      have h2 : (c == '_') = true := h
      exact beq_iff_eq.mp h2
    subst hc
    rfl

/-- The underscored form of a key is underscore-prefixed. -/
theorem startsU_underscored (k : String) : startsU (underscored k) = true := rfl

/-- Stripping the underscored form gives the key back. -/
theorem dropU_underscored (k : String) : dropU (underscored k) = k := rfl

/-- The system map of a record after an underscore-keyed row. -/
theorem system_applyRow_true {p : Property} {key v : String} (h : startsU key = true) :
    (applyRow p key v).system = setKV p.system (dropU key) v := by
  unfold applyRow
  rw [if_pos h]

/-- The system map is untouched by a context-keyed row. -/
theorem system_applyRow_false {p : Property} {key v : String} (h : startsU key = false) :
    (applyRow p key v).system = p.system := by
  unfold applyRow
  rw [if_neg (by simp [h])]

/-- The context map is untouched by an underscore-keyed row. -/
theorem context_applyRow_true {p : Property} {key v : String} (h : startsU key = true) :
    (applyRow p key v).context = p.context := by
  unfold applyRow
  rw [if_pos h]

/-- The context map of a record after a context-keyed row. -/
theorem context_applyRow_false {p : Property} {key v : String} (h : startsU key = false) :
    (applyRow p key v).context = setKV p.context key v := by
  unfold applyRow
  rw [if_neg (by simp [h])]

/-- The last value of a list ending in `r` is the value of `r`. -/
theorem lastVal_concat (l : List Row) (r : Row) : lastVal (l ++ [r]) = some r.value := by
  induction l with
  | nil => rfl
  | cons x xs ih => simp [lastVal, ih]

/-- The system value at `k` after a replay is the value of the last row
keyed `_k`, the starting value if there is none: last write wins. -/
theorem lookupO_system_extendProp (k : String) : ∀ (frows : List Row) (p : Property),
    lookupO (extendProp p frows).system k
      = match lastVal (frows.filter (fun r => r.key == underscored k)) with
        | some v => some v
        | none => lookupO p.system k := by
  intro frows
  induction frows using List.reverseRecOn with
  | nil => intro p; simp [extendProp, lastVal]
  | append_singleton l r ih =>
    intro p
    rw [extendProp_concat, List.filter_append]
    by_cases hr : r.key = underscored k
    · have hkey : (r.key == underscored k) = true := beq_iff_eq.mpr hr
      have hU : startsU r.key = true := by
        rw [hr]
        exact startsU_underscored k
      have hfil : List.filter (fun r2 => r2.key == underscored k) [r] = [r] := by
        simp [List.filter, hkey]
      have hdrop : dropU r.key = k := by
        rw [hr]
        exact dropU_underscored k
      rw [show lookupO (applyRow (extendProp p l) r.key r.value).system k
          = lookupO (setKV (extendProp p l).system (dropU r.key) r.value) k from by
            rw [system_applyRow_true hU]]
      rw [hdrop, lookupO_setKV_self, hfil, lastVal_concat]
    · have hkey : (r.key == underscored k) = false := beq_eq_false_iff_ne.mpr hr
      have hfil : List.filter (fun r2 => r2.key == underscored k) [r] = [] := by
        simp [List.filter, hkey]
      rw [hfil, List.append_nil]
      cases hU : startsU r.key with
      | true =>
        rw [show lookupO (applyRow (extendProp p l) r.key r.value).system k
            = lookupO (setKV (extendProp p l).system (dropU r.key) r.value) k from by
              rw [system_applyRow_true hU]]
        have hne : dropU r.key ≠ k := by
          intro he
          apply hr
          rw [eq_underscored_of_startsU hU, he]
        rw [lookupO_setKV_ne hne]
        exact ih p
      | false =>
        rw [show lookupO (applyRow (extendProp p l) r.key r.value).system k
            = lookupO (extendProp p l).system k from by rw [system_applyRow_false hU]]
        exact ih p

/-- The context value at an unprefixed `k` after a replay is the value of
the last row keyed `k`, the starting value if there is none. -/
theorem lookupO_context_extendProp {k : String} (hk : startsU k = false) :
    ∀ (frows : List Row) (p : Property),
    lookupO (extendProp p frows).context k
      = match lastVal (frows.filter (fun r => r.key == k)) with
        | some v => some v
        | none => lookupO p.context k := by
  intro frows
  induction frows using List.reverseRecOn with
  | nil => intro p; simp [extendProp, lastVal]
  | append_singleton l r ih =>
    intro p
    rw [extendProp_concat, List.filter_append]
    by_cases hr : r.key = k
    · have hkey : (r.key == k) = true := beq_iff_eq.mpr hr
      have hU : startsU r.key = false := by
        rw [hr]
        exact hk
      have hfil : List.filter (fun r2 => r2.key == k) [r] = [r] := by
        simp [List.filter, hkey]
      rw [show lookupO (applyRow (extendProp p l) r.key r.value).context k
          = lookupO (setKV (extendProp p l).context r.key r.value) k from by
            rw [context_applyRow_false hU]]
      rw [hr, lookupO_setKV_self, hfil, lastVal_concat]
    · have hkey : (r.key == k) = false := beq_eq_false_iff_ne.mpr hr
      have hfil : List.filter (fun r2 => r2.key == k) [r] = [] := by
        simp [List.filter, hkey]
      rw [hfil, List.append_nil]
      cases hU : startsU r.key with
      | true =>
        rw [show lookupO (applyRow (extendProp p l) r.key r.value).context k
            = lookupO (extendProp p l).context k from by rw [context_applyRow_true hU]]
        exact ih p
      | false =>
        rw [show lookupO (applyRow (extendProp p l) r.key r.value).context k
            = lookupO (setKV (extendProp p l).context r.key r.value) k from by
              rw [context_applyRow_false hU]]
        rw [lookupO_setKV_ne hr]
        exact ih p

/-- Membership after an assignment: an old pair or the assigned one. -/
theorem mem_setKV : ∀ {s : List (String × String)} {a v : String} {kv : String × String},
    kv ∈ setKV s a v → kv ∈ s ∨ kv = (a, v) := by
  intro s
  induction s with
  | nil =>
    intro a v kv h
    simp only [setKV] at h
    exact Or.inr (List.mem_singleton.mp h)
  | cons x xs ih =>
    intro a v kv h
    simp only [setKV] at h
    by_cases hx : x.1 = a
    · rw [if_pos (beq_iff_eq.mpr hx)] at h
      rcases List.mem_cons.mp h with he | hm
      · exact Or.inr he
      · exact Or.inl (List.mem_cons_of_mem x hm)
    · rw [if_neg (by simp [hx])] at h
      rcases List.mem_cons.mp h with he | hm
      · exact Or.inl (he ▸ List.mem_cons_self x xs)
      · rcases ih hm with h1 | h2
        · exact Or.inl (List.mem_cons_of_mem x h1)
        · exact Or.inr h2

/-- Every system entry after a replay is an old one or comes from an
underscore-keyed row, stripped. -/
theorem mem_system_extendProp : ∀ (frows : List Row) (p : Property) (kv : String × String),
    kv ∈ (extendProp p frows).system →
      kv ∈ p.system
        ∨ ∃ r ∈ frows, startsU r.key = true ∧ dropU r.key = kv.1 ∧ r.value = kv.2 := by
  intro frows
  induction frows with
  | nil => intro p kv h; exact Or.inl h
  | cons r rs ih =>
    intro p kv h
    rw [extendProp_cons] at h
    rcases ih _ kv h with h1 | ⟨r2, hr2, hU, hd, hv⟩
    · cases hU : startsU r.key with
      | true =>
        rw [system_applyRow_true hU] at h1
        rcases mem_setKV h1 with h2 | h2
        · exact Or.inl h2
        · exact Or.inr ⟨r, List.mem_cons_self r rs, hU, by rw [h2], by rw [h2]⟩
      | false =>
        rw [system_applyRow_false hU] at h1
        exact Or.inl h1
    · exact Or.inr ⟨r2, List.mem_cons_of_mem r hr2, hU, hd, hv⟩

/-- Every context entry after a replay is an old one or comes from an
unprefixed row, unmodified. -/
theorem mem_context_extendProp : ∀ (frows : List Row) (p : Property) (kv : String × String),
    kv ∈ (extendProp p frows).context →
      kv ∈ p.context
        ∨ ∃ r ∈ frows, startsU r.key = false ∧ r.key = kv.1 ∧ r.value = kv.2 := by
  intro frows
  induction frows with
  | nil => intro p kv h; exact Or.inl h
  | cons r rs ih =>
    intro p kv h
    rw [extendProp_cons] at h
    rcases ih _ kv h with h1 | ⟨r2, hr2, hU, hk, hv⟩
    · cases hU : startsU r.key with
      | true =>
        rw [context_applyRow_true hU] at h1
        exact Or.inl h1
      | false =>
        rw [context_applyRow_false hU] at h1
        rcases mem_setKV h1 with h2 | h2
        · exact Or.inl h2
        · exact Or.inr ⟨r, List.mem_cons_self r rs, hU, by rw [h2], by rw [h2]⟩
    · exact Or.inr ⟨r2, List.mem_cons_of_mem r hr2, hU, hk, hv⟩

/-- C6: `groupRows` combines all rows sharing a `propertyId` into one
record, listed in first-seen id order; within a record, the system value
at `k` is the value of the last row of that id keyed `_k` (one leading
underscore stripped, later rows overwriting earlier ones), and the
context value at an unprefixed `k` is the value of the last row of that
id keyed `k`, stored unmodified. -/
theorem groupRows_grouping_spec : ∀ rows : List Row,
    (groupRows rows).map Property.id = firstSeen [] rows
      ∧ (∀ p, p ∈ groupRows rows → ∀ k : String,
          lookupO p.system k
              = lastVal (rows.filter (fun r => r.propId == p.id && r.key == underscored k))
            ∧ (startsU k = false →
                lookupO p.context k
                  = lastVal (rows.filter (fun r => r.propId == p.id && r.key == k)))) := by
  intro rows
  refine ⟨groupRows_ids rows, ?_⟩
  intro p hp k
  have hchar := groupRows_char rows p hp
  constructor
  · conv_lhs => rw [hchar]
    rw [lookupO_system_extendProp, List.filter_filter]
    rw [List.filter_congr
      (fun a _ => by rw [Bool.and_comm] :
        ∀ a ∈ rows, ((fun r2 => r2.key == underscored k) a && (fun r => r.propId == p.id) a)
          = ((fun r => r.propId == p.id && r.key == underscored k) a))]
    cases hv : lastVal (rows.filter (fun r => r.propId == p.id && r.key == underscored k)) with
    | none => rfl
    | some v => rfl
  · intro hk
    conv_lhs => rw [hchar]
    rw [lookupO_context_extendProp hk, List.filter_filter]
    rw [List.filter_congr
      (fun a _ => by rw [Bool.and_comm] :
        ∀ a ∈ rows, ((fun r2 => r2.key == k) a && (fun r => r.propId == p.id) a)
          = ((fun r => r.propId == p.id && r.key == k) a))]
    cases hv : lastVal (rows.filter (fun r => r.propId == p.id && r.key == k)) with
    | none => rfl
    | some v => rfl

/-- Rows for the C6 witness: three rows of id `p1` (with an overwrite of
`_name`) around one row of id `p2`. -/
def wRows6 : List Row :=
  [Row.mk "p1" "_name" "A", Row.mk "p1" "pet" "cats",
   Row.mk "p2" "_name" "B", Row.mk "p1" "_name" "C"]

/-- The record `groupRows wRows6` builds for `p1`. -/
def wP1 : Property := Property.mk "p1" [("name", "C")] [("pet", "cats")]

/-- Witness for C6: ids in first-seen order, last-write-wins on the
system key `name`, and the context key `pet` stored unmodified. -/
theorem groupRows_grouping_spec_witness :
    (groupRows wRows6).map Property.id = firstSeen [] wRows6
      ∧ lookupO wP1.system "name"
          = lastVal (wRows6.filter (fun r => r.propId == wP1.id && r.key == underscored "name"))
      ∧ lookupO wP1.context "pet"
          = lastVal (wRows6.filter (fun r => r.propId == wP1.id && r.key == "pet")) :=
  ⟨(groupRows_grouping_spec wRows6).1,
   ((groupRows_grouping_spec wRows6).2 wP1 (by decide) "name").1,
   ((groupRows_grouping_spec wRows6).2 wP1 (by decide) "pet").2 (by decide)⟩

/-- C10: the records returned by `groupRows` have pairwise distinct ids
(each `propertyId` appears at most once), each record id is the
`propertyId` of one of its source rows, no context key is
underscore-prefixed, and every system key is an underscore-prefixed row
key of the same record with exactly one leading underscore removed. -/
theorem groupRows_shape_invariant : ∀ rows : List Row,
    (groupRows rows).Pairwise (fun a b => a.id ≠ b.id)
      ∧ (∀ p, p ∈ groupRows rows →
          (∃ r ∈ rows, r.propId = p.id)
            ∧ (∀ kv ∈ p.context, startsU kv.1 = false)
            ∧ (∀ kv ∈ p.system, ∃ r ∈ rows, r.propId = p.id ∧ r.key = underscored kv.1)) := by
  intro rows
  constructor
  · have hnd : ((groupRows rows).map Property.id).Nodup := by
      rw [groupRows_ids]
      exact (firstSeen_nodup rows []).1
    exact List.pairwise_map.mp hnd
  · intro p hp
    have hchar := groupRows_char rows p hp
    refine ⟨?_, ?_, ?_⟩
    · have h1 : p.id ∈ (groupRows rows).map Property.id := List.mem_map_of_mem Property.id hp
      rw [groupRows_ids] at h1
      have h2 := firstSeen_sub rows [] p.id h1
      rcases List.mem_map.mp h2 with ⟨r, hr, he⟩
      exact ⟨r, hr, he⟩
    · intro kv hkv
      have h1 : kv ∈ (extendProp (freshProp p.id)
          (rows.filter (fun r => r.propId == p.id))).context := by
        rw [← hchar]
        exact hkv
      rcases mem_context_extendProp _ _ _ h1 with h2 | ⟨r, _, hU, hk, _⟩
      · exact absurd h2 (List.not_mem_nil kv)
      · rw [← hk]
        exact hU
    · intro kv hkv
      have h1 : kv ∈ (extendProp (freshProp p.id)
          (rows.filter (fun r => r.propId == p.id))).system := by
        rw [← hchar]
        exact hkv
      rcases mem_system_extendProp _ _ _ h1 with h2 | ⟨r, hr, hU, hd, _⟩
      · exact absurd h2 (List.not_mem_nil kv)
      · have hrr := List.mem_filter.mp hr
        refine ⟨r, hrr.1, beq_iff_eq.mp hrr.2, ?_⟩
        rw [eq_underscored_of_startsU hU, hd]

/-- Rows for the C10 witness: one system row and one context row of a
single id. -/
def wRows10 : List Row := [Row.mk "q1" "_city" "Lander", Row.mk "q1" "wifi" "fast"]

/-- The record `groupRows wRows10` builds for `q1`. -/
def wQ1 : Property := Property.mk "q1" [("city", "Lander")] [("wifi", "fast")]

/-- Witness for C10 on the two-row table. -/
theorem groupRows_shape_invariant_witness :
    (groupRows wRows10).Pairwise (fun a b => a.id ≠ b.id)
      ∧ (∃ r ∈ wRows10, r.propId = wQ1.id)
      ∧ (∀ kv ∈ wQ1.context, startsU kv.1 = false)
      ∧ (∀ kv ∈ wQ1.system, ∃ r ∈ wRows10, r.propId = wQ1.id ∧ r.key = underscored kv.1) :=
  ⟨(groupRows_shape_invariant wRows10).1,
   ((groupRows_shape_invariant wRows10).2 wQ1 (by decide)).1,
   ((groupRows_shape_invariant wRows10).2 wQ1 (by decide)).2.1,
   ((groupRows_shape_invariant wRows10).2 wQ1 (by decide)).2.2⟩
